import Mathlib

/-!
# normcat: the rate-limited dispatch engine

A shallow embedding of `main.go` of normcat: the divider ladder and the base
rate of the limiter, the jitter tick, the reader goroutine (`readLoop`), the
worker goroutine and the completion loop of `main`, followed by the properties
proved about them.

Modelling conventions.

* Go `int` / `int64` values that come from flags (`*rateLimit`, `*lines`) are
  `Int`; counters that start at `0` and are only incremented (`numMessages`)
  are `Nat`.  Such a counter wraps only after `2^63` lines; wrap-around is not
  modelled.
* `rate.Limit` is a `float64`; it is modelled by `ℚ`.  The only operations on
  it are one addition, one multiplication and the comparison with `0`.
* The goroutines are composed sequentially: the reader runs until it leaves
  `readLoop`, the single worker drains `dispatchBus` in FIFO order, then the
  completion loop of `main` collects the signals.  Channel capacities and the
  unsynchronised accesses to `*lines` and `numMessages` are not modelled.
-/

namespace Normcat

/-! ## Rate controller -/

/-- The `switch` of `main` that sets `rateDivider` (initially `1`) from `*rateLimit`. -/
def rateDivider (rateLimit : Int) : Int :=
  if 5000 ≤ rateLimit ∧ rateLimit < 10000 then 3
  else if 10000 ≤ rateLimit ∧ rateLimit < 50000 then 7
  else if 50000 ≤ rateLimit ∧ rateLimit < 100000 then 11
  else if 100000 ≤ rateLimit ∧ rateLimit < 500000 then 19
  else if 500000 ≤ rateLimit ∧ rateLimit < 1000000 then 41
  else if 1000000 ≤ rateLimit then 97
  else 1

/-- The quotient `*rateLimit / rateDivider` for an arbitrary divider: Go integer
division, which truncates toward zero. -/
def rateQuot (rateLimit divider : Int) : Int :=
  Int.tdiv rateLimit divider

/-- The value `rateBase := rate.Limit(*rateLimit / rateDivider)`: the integer
quotient, then converted to a limit. -/
def rateBase (rateLimit : Int) : Int :=
  rateQuot rateLimit (rateDivider rateLimit)

/-- The assignment `*jitter = *jitter / float64(rateDivider)`. -/
def jitterScaled (rateLimit : Int) (jitter : ℚ) : ℚ :=
  jitter / ((rateDivider rateLimit : Int) : ℚ)

/-- The sum `rateBase + rate.Limit(rand.NormFloat64() * *jitter)` of one tick,
where `sample` is the value returned by `rand.NormFloat64()`. -/
def jitterDraw (rateLimit : Int) (jitter sample : ℚ) : ℚ :=
  ((rateBase rateLimit : Int) : ℚ) + sample * jitterScaled rateLimit jitter

/-- The guard `if jitterLimit < 0 { jitterLimit = 1 }`. -/
def clampLimit (jitterLimit : ℚ) : ℚ :=
  if jitterLimit < 0 then 1 else jitterLimit

/-- The value passed to `limiter.SetLimit` on one tick of the ticker. -/
def jitterLimit (rateLimit : Int) (jitter sample : ℚ) : ℚ :=
  clampLimit (jitterDraw rateLimit jitter sample)

/-! ## Stream handle -/

/-- How a pass of `for in.Scan()` ends: `Scan` returns `false` at the end of
the input and also when the underlying read fails. -/
inductive ScanEnd where
  | eof
  | ioError
  deriving DecidableEq, Repr

/-- One pass of a fresh `bufio.Scanner` over `data`: the lines it yields and
how the pass ends. -/
structure Pass where
  text : List String
  stop : ScanEnd
  deriving DecidableEq, Repr

/-- The stream returned by `streamHandle`: `s i` is what a fresh scanner reads
after `reset` has been called `i` times. -/
abbrev Stream := Nat → Pass

/-- A file that can be rewound: every pass reads the same lines up to the end
of the input. -/
def fileStream (src : List String) : Stream :=
  fun _ => { text := src, stop := ScanEnd.eof }

/-- The variables of the reader goroutine: its counter `numMessages`, the flag
value `*lines`, the messages it has sent on `dispatchBus` (oldest first), the
number of calls of `reset`, and whether it is still inside `readLoop`. -/
structure Reader where
  numMessages : Nat
  lines : Int
  dispatchBus : List String
  resets : Nat
  running : Bool
  deriving DecidableEq, Repr

/-- The reader when the goroutine starts: `numMessages := int64(0)`. -/
def Reader.start (lines : Int) : Reader :=
  { numMessages := 0, lines := lines, dispatchBus := [], resets := 0, running := true }

/-- The inner loop `for in.Scan() { ... }` over the lines of one pass.  The
flag of the result says whether `break readLoop` was taken. -/
def scanLoop : List String → Reader → Reader × Bool
  | [], r => (r, false)
  | msg :: rest, r =>
    let r1 := { r with dispatchBus := r.dispatchBus ++ [msg], numMessages := r.numMessages + 1 }
    if (r1.numMessages : Int) = r1.lines then (r1, true) else scanLoop rest r1

/-- One iteration of the outer `for` of `readLoop`: a scan pass, then either
the `break`, or the `*cycle != true` branch, or `reset()`. The argument `cycle`
is the value of `*cycle` left by `streamHandle`, which clears it for the
standard input. -/
def readPass (s : Stream) (cycle : Bool) (r : Reader) : Reader :=
  match scanLoop (s r.resets).text r with
  | (r1, true) => { r1 with running := false }
  | (r1, false) =>
    if cycle != true then { r1 with lines := (r1.numMessages : Int), running := false }
    else { r1 with resets := r1.resets + 1 }

/-- The loop `readLoop`, run for at most `fuel` iterations of the outer `for`. -/
def readLoop (s : Stream) (cycle : Bool) : Nat → Reader → Reader
  | 0, r => r
  | fuel + 1, r => if r.running then readLoop s cycle fuel (readPass s cycle r) else r

/-! ## Worker goroutine -/

/-- What a worker does, in program order. `println msg failed` is the call
`fmt.Println(msg)` and whether it returned an error; `signal` is `wait <- true`;
`limiterWait` is `limiter.Wait(ctx)`. -/
inductive Event where
  | println (msg : String) (failed : Bool)
  | signal
  | limiterWait
  deriving DecidableEq, Repr

/-- The body of `for msg := range msgBus` for the message `msg`, when the local
counter is `numMessages`; `failed` is the outcome of the write, which the body
does not inspect. -/
def workerStep (divider : Nat) (numMessages : Nat) (msg : String) (failed : Bool) : List Event :=
  [Event.println msg failed, Event.signal] ++
    (if numMessages % divider = 0 then [Event.limiterWait] else [])

/-- The loop of `worker` from the counter value `numMessages` on, over the
messages it dequeues; `writeFails i` tells whether the write of the message
with counter `i` returns an error. -/
def workerFrom (divider : Nat) (writeFails : Nat → Bool) : Nat → List String → List Event
  | _, [] => []
  | numMessages, msg :: rest =>
    workerStep divider numMessages msg (writeFails numMessages) ++
      workerFrom divider writeFails (numMessages + 1) rest

/-- The function `worker`: `numMessages := 0`, then the loop. -/
def worker (divider : Nat) (writeFails : Nat → Bool) (msgs : List String) : List Event :=
  workerFrom divider writeFails 0 msgs

/-- The lines that reached the sink: the writes that did not fail. -/
def sinkOf : List Event → List String
  | [] => []
  | Event.println msg false :: es => msg :: sinkOf es
  | _ :: es => sinkOf es

/-- The lines handed to `fmt.Println`, whether or not the write failed. -/
def writesOf : List Event → List String
  | [] => []
  | Event.println msg _ :: es => msg :: writesOf es
  | _ :: es => writesOf es

/-- The number of values sent on `wait`. -/
def signalsOf (es : List Event) : Nat :=
  es.count Event.signal

/-- The number of calls of `limiter.Wait`. -/
def waitsOf (es : List Event) : Nat :=
  es.count Event.limiterWait

/-- A sink on which no write fails. -/
def goodSink : Nat → Bool :=
  fun _ => false

/-! ## Completion loop and the whole run -/

/-- The loop `for i := int64(0); i < *lines; i++ { <-wait }` from the value
`i` on, with `avail` values still to come on `wait`: `none` when the receive
blocks for ever, else the final `i`. -/
def completionLoop (lines : Int) : Nat → Nat → Option Nat
  | i, avail =>
    if (i : Int) < lines then
      match avail with
      | 0 => none
      | a + 1 => completionLoop lines (i + 1) a
    else some i

/-- How a run of the program ends. `fatal` is the `log.Fatalln` of
`streamHandle` when the file cannot be opened; `stuck` is a run that has not
reached the end of `main`, because the reader is still in its loop after the
passes it was given or because the completion loop blocks on `wait`;
`finished n` is the return of `main` after `n` receives on `wait`. -/
inductive Outcome where
  | fatal
  | stuck
  | finished (n : Nat)
  deriving DecidableEq, Repr

/-- The program with one worker: `streamHandle` (with `none` for a file that
cannot be opened), the reader for at most `fuel` passes, the worker, then the
completion loop. -/
def main (file : Option Stream) (cycle : Bool) (lines : Int) (divider : Nat)
    (writeFails : Nat → Bool) (fuel : Nat) : Outcome :=
  match file with
  | none => Outcome.fatal
  | some s =>
    let r := readLoop s cycle fuel (Reader.start lines)
    if r.running then Outcome.stuck
    else
      match completionLoop r.lines 0 (signalsOf (worker divider writeFails r.dispatchBus)) with
      | none => Outcome.stuck
      | some n => Outcome.finished n

/-! ## The divider ladder, as a table -/

/-- The ladder as the specification words it, to be compared with
`rateDivider`: each rung with the test that a rate lies on it and the divider
it stands for. -/
def ladderRungs : List ((Int → Bool) × Int) :=
  [ (fun R => decide (R < 5000), 1),
    (fun R => decide (5000 ≤ R ∧ R < 10000), 3),
    (fun R => decide (10000 ≤ R ∧ R < 50000), 7),
    (fun R => decide (50000 ≤ R ∧ R < 100000), 11),
    (fun R => decide (100000 ≤ R ∧ R < 500000), 19),
    (fun R => decide (500000 ≤ R ∧ R < 1000000), 41),
    (fun R => decide (1000000 ≤ R), 97) ]

/-- The dividers of the rungs on which the rate `R` lies. -/
def rungsOf (R : Int) : List Int :=
  (ladderRungs.filter (fun g => g.1 R)).map Prod.snd

/-! ## Properties of the rate controller -/

theorem rateDivider_cases (R : Int) :
    (R < 5000 ∧ rateDivider R = 1) ∨
    (5000 ≤ R ∧ R < 10000 ∧ rateDivider R = 3) ∨
    (10000 ≤ R ∧ R < 50000 ∧ rateDivider R = 7) ∨
    (50000 ≤ R ∧ R < 100000 ∧ rateDivider R = 11) ∨
    (100000 ≤ R ∧ R < 500000 ∧ rateDivider R = 19) ∨
    (500000 ≤ R ∧ R < 1000000 ∧ rateDivider R = 41) ∨
    (1000000 ≤ R ∧ rateDivider R = 97) := by
  unfold rateDivider
  split_ifs <;> omega

theorem rateDivider_pos (R : Int) : 0 < rateDivider R := by
  rcases rateDivider_cases R with h | h | h | h | h | h | h <;> omega

theorem rateDivider_mono (R R' : Int) (h : R ≤ R') : rateDivider R ≤ rateDivider R' := by
  rcases rateDivider_cases R with h1 | h1 | h1 | h1 | h1 | h1 | h1 <;>
    rcases rateDivider_cases R' with h2 | h2 | h2 | h2 | h2 | h2 | h2 <;> omega

theorem rungsOf_eq (R : Int) : rungsOf R = [rateDivider R] := by
  rcases rateDivider_cases R with h | h | h | h | h | h | h
  all_goals
    first | have f0 : R < 5000 := by omega | have f0 : ¬ (R < 5000) := by omega
    first | have f1 : 5000 ≤ R := by omega | have f1 : ¬ (5000 ≤ R) := by omega
    first | have f2 : R < 10000 := by omega | have f2 : ¬ (R < 10000) := by omega
    first | have f3 : 10000 ≤ R := by omega | have f3 : ¬ (10000 ≤ R) := by omega
    first | have f4 : R < 50000 := by omega | have f4 : ¬ (R < 50000) := by omega
    first | have f5 : 50000 ≤ R := by omega | have f5 : ¬ (50000 ≤ R) := by omega
    first | have f6 : R < 100000 := by omega | have f6 : ¬ (R < 100000) := by omega
    first | have f7 : 100000 ≤ R := by omega | have f7 : ¬ (100000 ≤ R) := by omega
    first | have f8 : R < 500000 := by omega | have f8 : ¬ (R < 500000) := by omega
    first | have f9 : 500000 ≤ R := by omega | have f9 : ¬ (500000 ≤ R) := by omega
    first | have f10 : R < 1000000 := by omega | have f10 : ¬ (R < 1000000) := by omega
    first | have f11 : 1000000 ≤ R := by omega | have f11 : ¬ (1000000 ≤ R) := by omega
    simp [rungsOf, ladderRungs, List.filter_cons, *]

/-- C7: the divider is the total function of the rate given by the ladder
1 / 3 / 7 / 11 / 19 / 41 / 97 with the bounds 5000, 10000, 50000, 100000,
500000 and 1000000; a rate of 70000 gives 11; every rate lies on exactly one
rung of the table, the one of its divider; and the divider does not decrease
when the rate grows. -/
theorem rateDivider_ladder (R : Int) :
    (rateDivider R = 1 ↔ R < 5000) ∧
    (rateDivider R = 3 ↔ 5000 ≤ R ∧ R < 10000) ∧
    (rateDivider R = 7 ↔ 10000 ≤ R ∧ R < 50000) ∧
    (rateDivider R = 11 ↔ 50000 ≤ R ∧ R < 100000) ∧
    (rateDivider R = 19 ↔ 100000 ≤ R ∧ R < 500000) ∧
    (rateDivider R = 41 ↔ 500000 ≤ R ∧ R < 1000000) ∧
    (rateDivider R = 97 ↔ 1000000 ≤ R) ∧
    rateDivider 70000 = 11 ∧
    rungsOf R = [rateDivider R] ∧
    (∀ R' : Int, R ≤ R' → rateDivider R ≤ rateDivider R') := by
  refine ⟨?_, ?_, ?_, ?_, ?_, ?_, ?_, by decide, rungsOf_eq R,
    fun R' h => rateDivider_mono R R' h⟩
  all_goals
    rcases rateDivider_cases R with h | h | h | h | h | h | h <;> omega

theorem ceil_step (D k : Nat) (hD : 1 ≤ D) :
    (k + 1 + D - 1) / D = (k + D - 1) / D + (if k % D = 0 then 1 else 0) := by
  have h1 : k + 1 + D - 1 = (k + D - 1) + 1 := by omega
  rw [h1, Nat.succ_div]
  have h2 : k + D - 1 + 1 = k + D := by omega
  rw [h2]
  congr 1
  have : D ∣ k + D ↔ k % D = 0 := by
    rw [Nat.dvd_add_self_right, Nat.dvd_iff_mod_eq_zero]
  simp only [this]

theorem workerFrom_trace (D : Nat) (wf : Nat → Bool) (msgs : List String) (k : Nat) :
    workerFrom D wf k msgs =
      (msgs.enumFrom k).flatMap (fun p => workerStep D p.1 p.2 (wf p.1)) := by
  induction msgs generalizing k with
  | nil => rfl
  | cons m rest ih => simp [workerFrom, List.enumFrom_cons, ih]

theorem signalsOf_workerFrom (D : Nat) (wf : Nat → Bool) (msgs : List String) (k : Nat) :
    signalsOf (workerFrom D wf k msgs) = msgs.length := by
  induction msgs generalizing k with
  | nil => rfl
  | cons m rest ih =>
    have := ih (k + 1)
    unfold signalsOf at this ⊢
    simp only [workerFrom, workerStep, List.count_append, this]
    split_ifs <;> simp [List.count_cons]
    all_goals omega

theorem waitsOf_workerFrom (D : Nat) (hD : 1 ≤ D) (wf : Nat → Bool) (msgs : List String)
    (k : Nat) :
    waitsOf (workerFrom D wf k msgs) + (k + D - 1) / D = (k + msgs.length + D - 1) / D := by
  induction msgs generalizing k with
  | nil => simp [workerFrom, waitsOf]
  | cons m rest ih =>
    have h := ih (k + 1)
    have hc := ceil_step D k hD
    unfold waitsOf at h ⊢
    simp only [workerFrom, workerStep, List.count_append, List.length_cons]
    have e : k + (rest.length + 1) + D - 1 = k + 1 + rest.length + D - 1 := by omega
    rw [e, ← h, hc]
    split_ifs <;> simp [List.count_cons]
    all_goals omega

theorem sinkOf_workerFrom (D : Nat) (msgs : List String) (k : Nat) :
    sinkOf (workerFrom D goodSink k msgs) = msgs := by
  induction msgs generalizing k with
  | nil => rfl
  | cons m rest ih =>
    simp only [workerFrom, workerStep, goodSink]
    split_ifs <;> simp [sinkOf, ih]

theorem writesOf_workerFrom (D : Nat) (wf : Nat → Bool) (msgs : List String) (k : Nat) :
    writesOf (workerFrom D wf k msgs) = msgs := by
  induction msgs generalizing k with
  | nil => rfl
  | cons m rest ih =>
    simp only [workerFrom, workerStep]
    split_ifs <;> simp [writesOf, ih]

/-! ## Properties of the reader -/

theorem scanLoop_no_break (ls : List String) (r : Reader)
    (h : ∀ j : Nat, 1 ≤ j → j ≤ ls.length → ((r.numMessages + j : Nat) : Int) ≠ r.lines) :
    scanLoop ls r =
      ({ r with dispatchBus := r.dispatchBus ++ ls,
                numMessages := r.numMessages + ls.length }, false) := by
  induction ls generalizing r with
  | nil => simp [scanLoop]
  | cons m rest ih =>
    have h1 := h 1 (le_refl 1) (by simp)
    rw [scanLoop]
    simp only
    rw [if_neg h1, ih]
    · simp [Nat.add_assoc, Nat.add_comm 1]
    · intro j hj1 hj2
      have := h (j + 1) (by omega) (by simp; omega)
      simpa [Nat.add_assoc, Nat.add_comm 1] using this

theorem scanLoop_break (ls : List String) (r : Reader) (d : Nat)
    (hd1 : 1 ≤ d) (hd2 : d ≤ ls.length)
    (h : ((r.numMessages + d : Nat) : Int) = r.lines) :
    scanLoop ls r =
      ({ r with dispatchBus := r.dispatchBus ++ ls.take d,
                numMessages := r.numMessages + d }, true) := by
  induction ls generalizing r d with
  | nil => simp at hd2; omega
  | cons m rest ih =>
    rw [scanLoop]
    simp only
    by_cases h1 : d = 1
    · subst h1
      rw [if_pos h]
      simp
    · have hne : ((r.numMessages + 1 : Nat) : Int) ≠ r.lines := by
        intro hc; rw [← h] at hc; omega
      rw [if_neg hne]
      obtain ⟨e, rfl⟩ : ∃ e, d = e + 1 := ⟨d - 1, by omega⟩
      rw [ih _ e (by omega) (by simpa using hd2)
        (by simpa [Nat.add_assoc, Nat.add_comm 1] using h)]
      simp [Nat.add_assoc, Nat.add_comm 1]

theorem readLoop_stopped (s : Stream) (cycle : Bool) (fuel : Nat) (r : Reader)
    (h : r.running = false) : readLoop s cycle fuel r = r := by
  cases fuel with
  | zero => rfl
  | succ n => simp [readLoop, h]

theorem completionLoop_enough (n : Nat) : ∀ (avail i : Nat), i ≤ n → n ≤ i + avail →
    completionLoop (n : Int) i avail = some n := by
  intro avail
  induction avail with
  | zero =>
    intro i h1 h2
    have : i = n := by omega
    subst this
    unfold completionLoop
    simp
  | succ a ih =>
    intro i h1 h2
    unfold completionLoop
    by_cases hlt : i < n
    · have : (i : Int) < (n : Int) := by exact_mod_cast hlt
      simp only [this, if_true]
      exact ih (i + 1) (by omega) (by omega)
    · have : i = n := by omega
      subst this
      simp

theorem readLoop_long (s : Stream) (cycle : Bool) (K fuel : Nat)
    (h1 : 1 ≤ K) (h2 : K ≤ (s 0).text.length) :
    readLoop s cycle (fuel + 1) (Reader.start (K : Int)) =
      { numMessages := K, lines := (K : Int),
        dispatchBus := (s 0).text.take K, resets := 0, running := false } := by
  have hs := scanLoop_break (s 0).text (Reader.start K) K h1 h2 (by simp [Reader.start])
  rw [readLoop]
  simp only [Reader.start] at hs ⊢
  simp only [if_true, readPass, hs]
  simp [readLoop_stopped]

theorem cycled_extend (src pre : List String) (n d : Nat)
    (hlen : pre.length = n) (hdvd : src.length ∣ n) (hd : d ≤ src.length)
    (hpre : ∀ i, i < n → pre[i]? = src[i % src.length]?) :
    ∀ i, i < n + d → (pre ++ src.take d)[i]? = src[i % src.length]? := by
  intro i hi
  by_cases hin : i < n
  · rw [List.getElem?_append_left (by omega)]
    exact hpre i hin
  · rw [List.getElem?_append_right (by omega), hlen,
      List.getElem?_take_of_lt (by omega)]
    obtain ⟨c, hc⟩ := hdvd
    have hi2 : i = (i - n) + src.length * c := by omega
    have hmod : i % src.length = i - n := by
      rw [hi2, Nat.add_mul_mod_self_left]
      have : i - n + src.length * c - n = i - n := by omega
      rw [this]
      exact Nat.mod_eq_of_lt (by omega)
    rw [hmod]

theorem readLoop_cycle_inv (src : List String) (K : Nat) (hM : 1 ≤ src.length) :
    ∀ (fuel : Nat) (r : Reader), r.running = true → r.lines = (K : Int) →
      src.length ∣ r.numMessages → r.numMessages < K →
      r.dispatchBus.length = r.numMessages →
      (∀ i, i < r.numMessages → r.dispatchBus[i]? = src[i % src.length]?) →
      K ≤ r.numMessages + fuel →
      (readLoop (fileStream src) true fuel r).running = false ∧
      (readLoop (fileStream src) true fuel r).lines = (K : Int) ∧
      (readLoop (fileStream src) true fuel r).numMessages = K ∧
      (readLoop (fileStream src) true fuel r).dispatchBus.length = K ∧
      (∀ i, i < K →
        (readLoop (fileStream src) true fuel r).dispatchBus[i]? = src[i % src.length]?) := by
  intro fuel
  induction fuel with
  | zero => intro r _ _ _ h4 _ _ h7; omega
  | succ f ih =>
    intro r h1 h2 h3 h4 h5 h6 h7
    rw [readLoop]
    simp only [h1, if_true]
    by_cases hcase : K ≤ r.numMessages + src.length
    · -- the requested count is met during this pass
      have hs := scanLoop_break src r (K - r.numMessages) (by omega) (by omega)
        (by rw [h2]; congr 1; omega)
      have hn : r.numMessages + (K - r.numMessages) = K := by omega
      have hel := cycled_extend src r.dispatchBus r.numMessages (K - r.numMessages)
        h5 h3 (by omega) h6
      rw [hn] at hs hel
      simp only [readPass, fileStream, hs]
      rw [readLoop_stopped _ _ _ _ rfl]
      refine ⟨rfl, h2, rfl, ?_, hel⟩
      simp [List.length_take, h5]
      omega
    · -- a whole pass, then a reset
      have hs := scanLoop_no_break src r (by
        intro j _ hj2
        rw [h2]
        omega)
      have hel := cycled_extend src r.dispatchBus r.numMessages src.length
        h5 h3 (le_refl _) h6
      rw [List.take_length] at hel
      simp only [readPass, fileStream, hs]
      simp only [bne_self_eq_false, Bool.false_eq_true, if_false]
      exact ih _ h1 h2 (Dvd.dvd.add h3 (dvd_refl _)) (by simp only; omega)
        (by simp [h5]) hel (by simp only; omega)

theorem main_finished (s : Stream) (cycle : Bool) (K : Int) (D : Nat) (wf : Nat → Bool)
    (fuel n : Nat) (msgs : List String) (r : Reader)
    (hr : readLoop s cycle fuel (Reader.start K) = r) (hrun : r.running = false)
    (hl : r.lines = (n : Int)) (hd : r.dispatchBus = msgs) (hn : n ≤ msgs.length) :
    main (some s) cycle K D wf fuel = Outcome.finished n := by
  have hc : completionLoop (n : Int) 0 (signalsOf (worker D wf msgs)) = some n :=
    completionLoop_enough n _ 0 (Nat.zero_le n) (by
      rw [worker, signalsOf_workerFrom]
      omega)
  simp only [main, hr, hrun, hl, hd, hc]
  simp

/-! ## The claims about the worker -/

/-- C10: for a divider D ≥ 1, a worker that handles n lines does, for each line
in dequeue order, the write, then one completion signal, then a call of the
limiter exactly when the 0-based index of the line is a multiple of D; the
lines reach the sink in that order, n signals are sent, and the limiter is
called ceil(n / D) times. -/
theorem worker_trace_counts (D : Nat) (hD : 1 ≤ D) (writeFails : Nat → Bool)
    (msgs : List String) :
    worker D writeFails msgs =
      msgs.enum.flatMap (fun p =>
        [Event.println p.2 (writeFails p.1), Event.signal] ++
          (if p.1 % D = 0 then [Event.limiterWait] else [])) ∧
    sinkOf (worker D goodSink msgs) = msgs ∧
    signalsOf (worker D writeFails msgs) = msgs.length ∧
    waitsOf (worker D writeFails msgs) = (msgs.length + D - 1) / D ∧
    msgs.length ≤ D * waitsOf (worker D writeFails msgs) ∧
    D * waitsOf (worker D writeFails msgs) < msgs.length + D := by
  have hw : waitsOf (worker D writeFails msgs) = (msgs.length + D - 1) / D := by
    have h := waitsOf_workerFrom D hD writeFails msgs 0
    have h0 : (0 + D - 1) / D = 0 := Nat.div_eq_of_lt (by omega)
    rw [h0] at h
    simpa [worker] using h
  have hdm := Nat.div_add_mod (msgs.length + D - 1) D
  have hlt := Nat.mod_lt (msgs.length + D - 1) (show D > 0 by omega)
  refine ⟨?_, sinkOf_workerFrom D msgs 0, signalsOf_workerFrom D writeFails msgs 0, hw, ?_, ?_⟩
  · rw [worker, workerFrom_trace]
    rfl
  · rw [hw]; omega
  · rw [hw]; omega

theorem worker_trace_counts_witness :
    1 ≤ 3 ∧ waitsOf (worker 3 goodSink ["a", "b", "c", "d"]) = 2 ∧
    signalsOf (worker 3 goodSink ["a", "b", "c", "d"]) = 4 :=
  ⟨by decide,
   (worker_trace_counts 3 (by decide) goodSink ["a", "b", "c", "d"]).2.2.2.1,
   (worker_trace_counts 3 (by decide) goodSink ["a", "b", "c", "d"]).2.2.1⟩

/-- C9, counterexample: the write of the first of two lines fails; the worker
still signals a completion for it, goes on to the second line, and the run
returns from `main` after two receives. -/
theorem worker_ignores_failed_write :
    worker 1 (fun i => decide (i = 0)) ["a", "b"] =
      [Event.println "a" true, Event.signal, Event.limiterWait,
       Event.println "b" false, Event.signal, Event.limiterWait] ∧
    main (some (fileStream ["a", "b"])) false 2 1 (fun i => decide (i = 0)) 1 =
      Outcome.finished 2 := by
  decide

/-- C9, amended: the worker does not look at the result of a write. Whatever
writes fail, it hands every dequeued line to the sink in order, signals one
completion per line, calls the limiter as often as with a sink that never
fails, and the run ends as it does with such a sink. -/
theorem worker_write_result_unused (D : Nat) (writeFails : Nat → Bool) (msgs : List String)
    (file : Option Stream) (cycle : Bool) (lines : Int) (fuel : Nat) :
    writesOf (worker D writeFails msgs) = msgs ∧
    signalsOf (worker D writeFails msgs) = msgs.length ∧
    waitsOf (worker D writeFails msgs) = waitsOf (worker D goodSink msgs) ∧
    main file cycle lines D writeFails fuel = main file cycle lines D goodSink fuel := by
  refine ⟨writesOf_workerFrom D writeFails msgs 0, signalsOf_workerFrom D writeFails msgs 0,
    ?_, ?_⟩
  · unfold worker
    generalize 0 = k
    induction msgs generalizing k with
    | nil => rfl
    | cons m rest ih =>
      have h := ih (k + 1)
      unfold waitsOf at h ⊢
      simp only [workerFrom, workerStep, List.count_append, h]
      split_ifs <;> simp [List.count_cons]
  · cases file with
    | none => rfl
    | some s =>
      simp only [main, worker, signalsOf_workerFrom]

/-! ## The claims about the reader -/

/-- For a requested count K ≥ 1 and a source with at least K lines, the reader
dispatches the first K lines and stops with the count still K, the worker
writes these lines in order, and `main` returns after K receives. -/
theorem reader_first_lines (src : List String) (cycle : Bool) (K D fuel : Nat)
    (h1 : 1 ≤ K) (h2 : K ≤ src.length) :
    readLoop (fileStream src) cycle (fuel + 1) (Reader.start (K : Int)) =
      { numMessages := K, lines := (K : Int), dispatchBus := src.take K,
        resets := 0, running := false } ∧
    sinkOf (worker D goodSink (src.take K)) = src.take K ∧
    main (some (fileStream src)) cycle (K : Int) D goodSink (fuel + 1) =
      Outcome.finished K := by
  have hr := readLoop_long (fileStream src) cycle K fuel h1 h2
  refine ⟨hr, sinkOf_workerFrom D _ 0, ?_⟩
  exact main_finished _ _ _ _ _ _ K (src.take K) _ hr rfl rfl rfl
    (by simp [fileStream, List.length_take]; omega)

/-- C2: with cycling on, a source of M ≥ 1 lines that can be rewound and a
requested count K > M, the reader, given at least K passes, leaves its loop
with the count still K and exactly K lines dispatched, the line at position i
being line i mod M of the source, for every i below K. -/
theorem reader_cycles (src : List String) (K fuel : Nat)
    (hM : 1 ≤ src.length) (hK : src.length < K) (hf : K ≤ fuel) :
    (readLoop (fileStream src) true fuel (Reader.start (K : Int))).running = false ∧
    (readLoop (fileStream src) true fuel (Reader.start (K : Int))).lines = (K : Int) ∧
    (readLoop (fileStream src) true fuel (Reader.start (K : Int))).numMessages = K ∧
    (readLoop (fileStream src) true fuel (Reader.start (K : Int))).dispatchBus.length = K ∧
    (∀ i, i < K →
      (readLoop (fileStream src) true fuel (Reader.start (K : Int))).dispatchBus[i]? =
        src[i % src.length]?) :=
  readLoop_cycle_inv src K hM fuel (Reader.start (K : Int)) rfl rfl (dvd_zero _)
    (by simp only [Reader.start]; omega) rfl
    (by intro i hi; simp only [Reader.start] at hi; omega)
    (by simp only [Reader.start]; omega)

theorem reader_cycles_witness :
    (readLoop (fileStream ["a", "b", "c"]) true 10
      (Reader.start ((10 : Nat) : Int))).dispatchBus.length = 10 ∧
    (readLoop (fileStream ["a", "b", "c"]) true 10
      (Reader.start ((10 : Nat) : Int))).dispatchBus =
      ["a", "b", "c", "a", "b", "c", "a", "b", "c", "a"] :=
  ⟨(reader_cycles ["a", "b", "c"] 10 10 (by decide) (by decide) (by decide)).2.2.2.1,
   by decide⟩

theorem readLoop_empty_cycle (n : Nat) (r : Reader) (h : r.running = true) :
    readLoop (fileStream []) true n r = { r with resets := r.resets + n } := by
  induction n generalizing r with
  | zero => rfl
  | succ k ih =>
    rw [readLoop]
    simp only [h, if_true, readPass, fileStream, scanLoop]
    simp only [bne_self_eq_false, Bool.false_eq_true, if_false]
    rw [ih _ rfl]
    simp [Nat.add_assoc, Nat.add_comm 1]

/-- C4, counterexample: with cycling on, the count 1 and a stream that is
empty on every pass, the reader is still inside its loop after one failed read
attempt, having called reset once, and also after 1000 attempts. -/
theorem reader_spins_on_empty :
    readLoop (fileStream []) true 1 (Reader.start 1) =
      { numMessages := 0, lines := 1, dispatchBus := [], resets := 1, running := true } ∧
    readLoop (fileStream []) true 1000 (Reader.start 1) =
      { numMessages := 0, lines := 1, dispatchBus := [], resets := 1000, running := true } :=
  ⟨by decide, by
    rw [readLoop_empty_cycle 1000 (Reader.start 1) rfl]
    simp [Reader.start]⟩

/-- C4, amended: with cycling on and a stream that is empty on every pass, the
reader never leaves its loop: after n failed read attempts it has called reset
n times, dispatched nothing and is still running, whatever n is. With cycling
off it stops after the first failed attempt, with the count lowered to 0. -/
theorem reader_empty_stream (K : Int) (n : Nat) :
    readLoop (fileStream []) true n (Reader.start K) =
      { numMessages := 0, lines := K, dispatchBus := [], resets := n, running := true } ∧
    readLoop (fileStream []) false (n + 1) (Reader.start K) =
      { numMessages := 0, lines := 0, dispatchBus := [], resets := 0, running := false } := by
  constructor
  · rw [readLoop_empty_cycle n (Reader.start K) rfl]
    simp [Reader.start]
  · rw [readLoop]
    simp only [Reader.start, if_true, readPass, fileStream, scanLoop]
    simp [readLoop_stopped]

end Normcat
